import Mathlib

/-!
ADB file pusher (`main.go`): a shallow embedding and its checked properties.

The Go program lists the third-party packages of a connected Android device and
pushes a chosen file to the package's data or OBB directory, scraping the
percentage that `adb push` prints to drive a progress bar.

Conventions of the embedding:

* a Go `string` holding UTF-8 text is a Lean `String`; the byte order of Go's
  `<` on strings and the byte-wise `strings.Contains` agree with the code-point
  order and code-point infix on such text;
* the Fyne data bindings (`progress`, `progressVisible`, `status`, `packages`)
  are write-only sinks from the point of view of the functions modelled here;
  a run is the list of writes (`Event`) in program order;
* `float64(progressVal) / 100` is the exact rational `progressVal / 100`; the
  `float64` the program writes is that rational correctly rounded, and rounding
  is monotone and fixes 0 and 1, so equalities with `N / 100` and bounds by 0 and
  1 carry over;
* `scanner.Scan()` hands `sendFile` a finite sequence of lines, a parameter of
  the model, as is the outcome of `cmd.Wait()`;
* Go's `int` is `intSize` bits wide, `intSize` being 32 or 64;
* the Unicode lower-case table behind `strings.ToLower` and the platform's
  `filepath.Base` are parameters.
-/

namespace ObbSender

/-! ## Standard-library models: `regexp` -/

/-- RE2 class `\s`, which is `[\t\n\f\r ]`. -/
def isReSpace (c : Char) : Bool :=
  c == '\t' || c == '\n' || c == '\x0c' || c == '\r' || c == ' '

/-- RE2 class `\d`, which is `[0-9]`. -/
def isReDigit (c : Char) : Bool :=
  decide ('0' ≤ c) && decide (c ≤ '9')

/-- Anchored match of the pattern of `sendFile`, `\[\s*(\d+)%\]`, at the head of the
input: the whole match and capture group 1. The three classes `\s`, `\d` and `%` are
pairwise disjoint, so the greedy choice for `\s*` and `\d+` is the only one a
backtracking matcher can succeed with. -/
def reMatchAt (s : List Char) : Option (List Char × List Char) :=
  match s with
  | '[' :: rest =>
    let ws := rest.takeWhile isReSpace
    let afterWs := rest.dropWhile isReSpace
    let ds := afterWs.takeWhile isReDigit
    match ds, afterWs.dropWhile isReDigit with
    | _ :: _, '%' :: ']' :: _ => some ('[' :: (ws ++ ds ++ ['%', ']']), ds)
    | _, _ => none
  | _ => none

/-- Leftmost match of `\[\s*(\d+)%\]` in the input: start positions are tried from
left to right. -/
def reFind : List Char → Option (List Char × List Char)
  | [] => none
  | c :: cs =>
    match reMatchAt (c :: cs) with
    | some m => some m
    | none => reFind cs

/-- The call `re.FindStringSubmatch(line)` for `re = \[\s*(\d+)%\]`: the slice
holding the whole match and group 1, or the empty (nil) slice when nothing matches. -/
def FindStringSubmatch (line : String) : List String :=
  match reFind line.data with
  | some (full, ds) => [String.mk full, String.mk ds]
  | none => []

/-! ## Standard-library models: `strconv` -/

/-- The two errors of `strconv`'s number parsers. -/
inductive NumError where
  | ErrSyntax
  | ErrRange
deriving DecidableEq, Repr

/-- Value of a decimal digit character. -/
def digitVal (c : Char) : Nat := c.toNat - '0'.toNat

/-- The digit loop of `strconv.ParseUint(s, 10, bitSize)` with `maxVal = 2^bitSize - 1`:
a character that is no decimal digit is a syntax error, a running value above
`maxVal` is a range error that returns `maxVal`. -/
def parseUintLoop (maxVal : Nat) : List Char → Nat → Nat × Option NumError
  | [], n => (n, none)
  | c :: cs, n =>
    if isReDigit c then
      if n * 10 + digitVal c > maxVal then (maxVal, some NumError.ErrRange)
      else parseUintLoop maxVal cs (n * 10 + digitVal c)
    else (0, some NumError.ErrSyntax)

/-- The function `strconv.Atoi(s)` for an `int` of `intSize` bits, that is
`strconv.ParseInt(s, 10, 0)` narrowed to `int` (the fast path of `Atoi` for short
inputs computes the same value). On a range error the value returned with the
error is the largest magnitude of the sign: `2^(intSize-1) - 1` or `-2^(intSize-1)`. -/
def Atoi (intSize : Nat) (s : String) : Int × Option NumError :=
  match s.data with
  | [] => (0, some NumError.ErrSyntax)
  | c :: cs =>
    let neg : Bool := c == '-'
    let body := if c == '+' || c == '-' then cs else c :: cs
    match body with
    | [] => (0, some NumError.ErrSyntax)
    | _ :: _ =>
      match parseUintLoop (2 ^ intSize - 1) body 0 with
      | (_, some NumError.ErrSyntax) => (0, some NumError.ErrSyntax)
      | (un, _) =>
        let cutoff : Nat := 2 ^ (intSize - 1)
        if !neg && decide (un ≥ cutoff) then (((cutoff - 1 : Nat) : Int), some NumError.ErrRange)
        else if neg && decide (un > cutoff) then (-(cutoff : Int), some NumError.ErrRange)
        else (if neg then -(un : Int) else (un : Int), none)

/-! ## The reporter and `sendFile` -/

/-- Argument of `translator.MustLocalize`: the message key and its template data.
The looked-up text is the translator's; the model records the request. -/
structure LocalizeConfig where
  MessageID : String
  TemplateData : List (String × String)
deriving DecidableEq, Repr

/-- One observable step of `sendFile`: a write to one of the three bindings, a
started `adb` command, or the `time.Sleep` of the hide goroutine (nanoseconds). -/
inductive Event where
  | progressVisibleSet (b : Bool)
  | progressSet (v : ℚ)
  | statusSet (msg : LocalizeConfig)
  | command (argv : List String)
  | sleep (d : Nat)
deriving DecidableEq, Repr

/-- The constant `time.Second`, in nanoseconds. -/
def Second : Nat := 1000000000

/-- The remote directory `sendFile` computes with `fmt.Sprintf`. -/
def remotePath (pkg dest : String) : String :=
  if dest = "files" then "/sdcard/Android/data/" ++ pkg ++ "/files/"
  else "/sdcard/Android/obb/" ++ pkg ++ "/"

/-- Body of the `for scanner.Scan()` loop of `sendFile` for one line: the writes to
`progress` it performs. The error of `strconv.Atoi` is discarded (`_`). -/
def scanLine (intSize : Nat) (line : String) : List Event :=
  match FindStringSubmatch line with
  | _ :: m1 :: _ => [Event.progressSet (((Atoi intSize m1).1 : ℚ) / 100)]
  | _ => []

/-- The `for scanner.Scan()` loop of `sendFile` over the lines the scanner yields. -/
def scanLoop (intSize : Nat) : List String → List Event
  | [] => []
  | line :: rest => scanLine intSize line ++ scanLoop intSize rest

/-- A run of `sendFile`: the steps of the function itself in program order, and the
steps of the goroutine it starts last (`none` when it starts none). -/
structure SendFileRun where
  main : List Event
  spawned : Option (List Event)
deriving DecidableEq, Repr

/-- The function `sendFile`. `lines` are the lines `scanner.Scan()` yields from the
combined output of `adb push`, `waitErr` tells whether `cmd.Wait()` returns an error,
`Base` is `filepath.Base`. -/
def sendFile (intSize : Nat) (Base : String → String) (pkg dest filePath : String)
    (lines : List String) (waitErr : Bool) : SendFileRun :=
  let start : List Event :=
    [ Event.progressVisibleSet true,
      Event.progressSet 0,
      Event.statusSet ⟨"Status.Sending", [("file", Base filePath)]⟩,
      Event.command ["adb", "shell", "mkdir", "-p", remotePath pkg dest],
      Event.command ["adb", "push", filePath, remotePath pkg dest] ]
  let loop := scanLoop intSize lines
  if waitErr then
    { main := start ++ loop ++
        [ Event.statusSet ⟨"Error.SendFailed", []⟩,
          Event.progressVisibleSet false ],
      spawned := none }
  else
    { main := start ++ loop ++
        [ Event.progressSet 1,
          Event.statusSet ⟨"Status.Success", []⟩ ],
      spawned := some [Event.sleep (2 * Second), Event.progressVisibleSet false] }

/-- Every step of a run in time order: the goroutine is started by the last
statement of `sendFile`, so its steps follow those of the function. -/
def SendFileRun.timeline (r : SendFileRun) : List Event :=
  r.main ++ r.spawned.getD []

/-- The values the bindings hold: what the progress bar and status label show. -/
structure Reporter where
  progress : ℚ
  progressVisible : Bool
  status : Option LocalizeConfig
deriving DecidableEq, Repr

/-- Effect of one step on the bindings. -/
def Reporter.step (r : Reporter) : Event → Reporter
  | Event.progressVisibleSet b => { r with progressVisible := b }
  | Event.progressSet v => { r with progress := v }
  | Event.statusSet m => { r with status := some m }
  | Event.command _ => r
  | Event.sleep _ => r

/-- Effect of a sequence of steps on the bindings. -/
def Reporter.run (r : Reporter) (evs : List Event) : Reporter :=
  evs.foldl Reporter.step r

/-! ## Standard-library models: `unicode`, `strings`, `sort` -/

/-- The predicate `unicode.IsSpace`: the Latin-1 spaces `\t \n \v \f \r`, blank,
U+0085 and U+00A0, and above Latin-1 the code points of the table `White_Space`:
U+1680, U+2000 to U+200A, U+2028, U+2029, U+202F, U+205F and U+3000. -/
def isSpace (c : Char) : Bool :=
  c == '\t' || c == '\n' || c == '\x0b' || c == '\x0c' || c == '\r' || c == ' ' ||
  c == '\u0085' || c == '\u00a0' || c == '\u1680' ||
  (decide ('\u2000' ≤ c) && decide (c ≤ '\u200a')) ||
  c == '\u2028' || c == '\u2029' || c == '\u202f' || c == '\u205f' || c == '\u3000'

/-- The function `strings.ToLower`: `unicode.ToLower`, here `toLower`, applied to
every code point. -/
def ToLower (toLower : Char → Char) (s : String) : String :=
  String.mk (s.data.map toLower)

/-- The function `strings.TrimSpace`: leading and trailing white space removed. -/
def TrimSpace (s : String) : String :=
  String.mk ((s.data.dropWhile isSpace).reverse.dropWhile isSpace).reverse

/-- The function `strings.TrimPrefix`. -/
def TrimPrefix (s pre : String) : String :=
  if pre.data.isPrefixOf s.data then String.mk (s.data.drop pre.data.length) else s

/-- The pieces of a text between the characters that satisfy `p`; there is one piece
more than there are such characters. -/
def splitBy (p : Char → Bool) : List Char → List (List Char)
  | [] => [[]]
  | c :: cs =>
    if p c then [] :: splitBy p cs
    else
      match splitBy p cs with
      | h :: t => (c :: h) :: t
      | [] => [[c]]

/-- The function `strings.Split(s, sep)` for a separator of one character. -/
def Split (s : String) (sep : Char) : List String :=
  (splitBy (fun c => c == sep) s.data).map String.mk

/-- The function `strings.Fields`: the maximal runs of characters that are not white
space, that is the non-empty pieces between white-space characters. -/
def Fields (s : String) : List String :=
  ((splitBy isSpace s.data).filter (fun f => !f.isEmpty)).map String.mk

/-- Whether `t` occurs in the text as a contiguous block. -/
def hasInfix (t : List Char) : List Char → Bool
  | [] => t.isEmpty
  | c :: cs => t.isPrefixOf (c :: cs) || hasInfix t cs

/-- The function `strings.Contains`. -/
def Contains (s substr : String) : Bool :=
  hasInfix substr.data s.data

/-- The function `sort.Strings`: ascending order of Go's `<` on strings. The order
is total, so the sorted rearrangement is unique and the algorithm does not show. -/
def sortStrings (x : List String) : List String :=
  x.insertionSort (fun a b => a ≤ b)

/-- What `sort.Slice(x, less)` promises of its result `out`, for a `less` that is a
strict weak ordering: a rearrangement of `x` in which no element is less than an
element before it. The sort is not stable; elements that compare equal may come in
any order. -/
def IsSortSliceResult {α : Type} (less : α → α → Bool) (x out : List α) : Prop :=
  out.Perm x ∧ out.Pairwise (fun a b => less b a = false)

/-- Strict weak ordering: irreflexive, transitive, with transitive incomparability. -/
def IsStrictWeakOrder {α : Type} (less : α → α → Bool) : Prop :=
  (∀ a, less a a = false) ∧
  (∀ a b c, less a b = true → less b c = true → less a c = true) ∧
  (∀ a b c, less a b = false → less b a = false → less b c = false → less c b = false →
    less a c = false ∧ less c a = false)

/-! ## `listPackages` -/

/-- The master list `allPackages` and the list bound to the package list widget. -/
structure PackageLists where
  allPackages : List String
  packages : List String
deriving DecidableEq, Repr

/-- Result of `cmd.Output()`: the output, or the text of the error. -/
inductive CmdOutput where
  | ok (output : String)
  | error (msg : String)
deriving DecidableEq, Repr

/-- The loop of `listPackages` over the lines: prefix and white space stripped, the
non-empty results appended to `pkgList`. -/
def collectPackages : List String → List String
  | [] => []
  | line :: rest =>
    let line1 := TrimSpace (TrimPrefix line "package:")
    if line1 ≠ "" then line1 :: collectPackages rest else collectPackages rest

/-- The function `listPackages`: the two lists after the call and the writes to
`status`, given what the `adb shell pm list packages -3` command returned. -/
def listPackages (st : PackageLists) (res : CmdOutput) : PackageLists × List LocalizeConfig :=
  match res with
  | CmdOutput.error msg =>
    if Contains msg "executable file not found" then
      (st, [⟨"Status.Listing", []⟩, ⟨"Error.ADBNotFound", []⟩])
    else
      (st, [⟨"Status.Listing", []⟩, ⟨"Error.DeviceNotFound", []⟩])
  | CmdOutput.ok output =>
    let pkgList := sortStrings (collectPackages (Split output '\n'))
    ({ allPackages := pkgList, packages := pkgList },
      [⟨"Status.Listing", []⟩, ⟨"Status.Ready", []⟩])

/-! ## The package search box -/

/-- The inner loop of `searchEntry.OnChanged`: `matchesAll` after the loop over the
search terms, which stops at the first term the name does not contain. -/
def matchesAll (pkgLower : String) : List String → Bool
  | [] => true
  | term :: rest => if !Contains pkgLower term then false else matchesAll pkgLower rest

/-- The outer loop of `searchEntry.OnChanged`: `filteredList` after the loop over
`allPackages`. -/
def filterPackages (toLower : Char → Char) (searchTerms : List String) :
    List String → List String
  | [] => []
  | pkg :: rest =>
    if matchesAll (ToLower toLower pkg) searchTerms then
      pkg :: filterPackages toLower searchTerms rest
    else filterPackages toLower searchTerms rest

/-- The handler `searchEntry.OnChanged`: the two lists after the search text changed
to `text`. -/
def searchOnChanged (toLower : Char → Char) (st : PackageLists) (text : String) :
    PackageLists :=
  let searchText := TrimSpace (ToLower toLower text)
  if searchText = "" then { st with packages := st.allPackages }
  else { st with packages := filterPackages toLower (Fields searchText) st.allPackages }

/-- Lower case of the ASCII letters, every other character left as it is: the
restriction of `unicode.ToLower` to ASCII text. -/
def asciiToLower (c : Char) : Char :=
  if 'A' ≤ c ∧ c ≤ 'Z' then Char.ofNat (c.toNat + 32) else c

/-! ## The file browser -/

/-- What the browser reads of an `os.DirEntry`. -/
structure DirEntry where
  Name : String
  IsDir : Bool
deriving DecidableEq, Repr

/-- The `less` closure `updateFiles` hands to `sort.Slice`, on the two entries it
compares. -/
def filesLess (toLower : Char → Char) (a b : DirEntry) : Bool :=
  if a.IsDir != b.IsDir then a.IsDir
  else decide (ToLower toLower a.Name < ToLower toLower b.Name)

/-! ## The pattern, stated declaratively -/

/-- The text `[`, `ws`, `ds`, `%`, `]`: one instance of the pattern `\[\s*(\d+)%\]`
when `ws` is whitespace of class `\s` and `ds` a non-empty run of digits. -/
def occurrence (ws ds : List Char) : List Char :=
  '[' :: (ws ++ ds ++ ['%', ']'])

/-- The text holds an instance of the pattern `\[\s*(\d+)%\]` somewhere. -/
def ContainsPattern (s : List Char) : Prop :=
  ∃ pre ws ds post, (∀ c ∈ ws, isReSpace c = true) ∧ ds ≠ [] ∧
    (∀ c ∈ ds, isReDigit c = true) ∧ s = pre ++ occurrence ws ds ++ post

/-! ## Lemmas on the matcher -/

theorem isReSpace_not_digit {c : Char} (h : isReDigit c = true) : isReSpace c = false := by
  by_contra hs
  have hs' : isReSpace c = true := by simpa using hs
  unfold isReSpace at hs'
  simp only [Bool.or_eq_true, beq_iff_eq] at hs'
  rcases hs' with (((rfl | rfl) | rfl) | rfl) | rfl <;> exact absurd h (by decide)

theorem takeWhile_barrier {p : Char → Bool} (a : List Char) (b : Char) (y : List Char)
    (hb : p b = false) :
    (a ++ b :: y).takeWhile p = a.takeWhile p ∧
      (a ++ b :: y).dropWhile p = a.dropWhile p ++ b :: y := by
  induction a with
  | nil => simp [List.takeWhile, List.dropWhile, hb]
  | cons x xs ih =>
    by_cases hx : p x = true
    · simp [List.takeWhile, List.dropWhile, hx, ih.1, ih.2]
    · have hx' : p x = false := by simpa using hx
      simp [List.takeWhile, List.dropWhile, hx']

theorem takeWhile_all {p : Char → Bool} (a : List Char) (h : ∀ c ∈ a, p c = true) :
    a.takeWhile p = a ∧ a.dropWhile p = [] := by
  induction a with
  | nil => simp
  | cons x xs ih =>
    have hx : p x = true := h x (List.mem_cons_self _ _)
    have ih' := ih (fun c hc => h c (List.mem_cons_of_mem _ hc))
    simp [List.takeWhile, List.dropWhile, hx, ih'.1, ih'.2]

/-- The anchored matcher accepts every instance of the pattern and returns its
digit run. -/
theorem reMatchAt_occurrence (ws ds post : List Char)
    (hws : ∀ c ∈ ws, isReSpace c = true) (hne : ds ≠ [])
    (hds : ∀ c ∈ ds, isReDigit c = true) :
    reMatchAt (occurrence ws ds ++ post) = some (occurrence ws ds, ds) := by
  obtain ⟨d, ds', rfl⟩ := List.exists_cons_of_ne_nil hne
  have hd : isReDigit d = true := hds d (List.mem_cons_self _ _)
  have h1 := takeWhile_barrier ws d (ds' ++ '%' :: ']' :: post) (isReSpace_not_digit hd)
  have h2 := takeWhile_all ws hws
  have h3 := takeWhile_barrier (d :: ds') '%' (']' :: post) (by decide : isReDigit '%' = false)
  have h4 := takeWhile_all (d :: ds') hds
  have e : occurrence ws (d :: ds') ++ post
      = '[' :: (ws ++ d :: (ds' ++ '%' :: ']' :: post)) := by
    simp [occurrence]
  rw [e]
  unfold reMatchAt
  simp only []
  rw [h1.1, h1.2, h2.1, h2.2]
  have e2 : ([] : List Char) ++ d :: (ds' ++ '%' :: ']' :: post)
      = (d :: ds') ++ '%' :: ']' :: post := by simp
  rw [e2, h3.1, h3.2, h4.1, h4.2]
  simp [occurrence]

/-- Whatever the anchored matcher accepts is an instance of the pattern at the head
of the input. -/
theorem reMatchAt_some {s full g : List Char} (h : reMatchAt s = some (full, g)) :
    ∃ ws post, (∀ c ∈ ws, isReSpace c = true) ∧ g ≠ [] ∧ (∀ c ∈ g, isReDigit c = true) ∧
      full = occurrence ws g ∧ s = occurrence ws g ++ post := by
  unfold reMatchAt at h
  split at h
  · rename_i rest
    simp only [] at h
    split at h
    · rename_i d ds' post hds htail
      simp only [Option.some.injEq, Prod.mk.injEq] at h
      obtain ⟨hfull, hg⟩ := h
      refine ⟨rest.takeWhile isReSpace, post, ?_, ?_, ?_, ?_, ?_⟩
      · intro c hc
        exact (List.mem_takeWhile_imp hc)
      · rw [← hg, hds]; simp
      · intro c hc
        rw [← hg] at hc
        exact (List.mem_takeWhile_imp hc)
      · rw [← hfull, ← hg]; simp [occurrence]
      · rw [← hg]
        have e1 := List.takeWhile_append_dropWhile isReSpace rest
        have e2 := List.takeWhile_append_dropWhile isReDigit (rest.dropWhile isReSpace)
        rw [htail] at e2
        simp only [occurrence, List.cons_append, List.append_assoc, List.nil_append,
          List.cons.injEq, true_and]
        rw [e2, e1]
    · cases h
  · cases h

/-- A `[` further right stops the anchored matcher: a match that begins before it
ends before it. -/
theorem reMatchAt_barrier (c : Char) (a y : List Char) (m : List Char × List Char)
    (h : reMatchAt (c :: a ++ '[' :: y) = some m) : reMatchAt (c :: a) = some m := by
  have hs := takeWhile_barrier (p := isReSpace) a '[' y (by decide)
  have hd := takeWhile_barrier (p := isReDigit) (a.dropWhile isReSpace) '[' y (by decide)
  by_cases hc : c = '['
  · subst hc
    simp only [List.cons_append, reMatchAt] at h ⊢
    rw [hs.1, hs.2, hd.1, hd.2] at h
    cases hds : (a.dropWhile isReSpace).takeWhile isReDigit with
    | nil => rw [hds] at h; simp at h
    | cons d ds' =>
      rw [hds] at h
      cases ht : (a.dropWhile isReSpace).dropWhile isReDigit with
      | nil => rw [ht] at h; simp at h
      | cons x t =>
        rw [ht] at h
        cases t with
        | nil =>
          by_cases hx : x = '%'
          · subst hx; simp at h
          · simp [hx] at h
        | cons x2 t2 =>
          by_cases hx : x = '%'
          · by_cases hx2 : x2 = ']'
            · subst hx; subst hx2
              simpa using h
            · subst hx
              simp [hx2] at h
          · simp [hx] at h
  · have : reMatchAt (c :: a ++ '[' :: y) = none := by
      simp only [List.cons_append, reMatchAt]
      split
      · rename_i heq
        simp only [List.cons.injEq] at heq
        exact absurd heq.1 hc
      · rfl
    rw [this] at h
    cases h

theorem containsPattern_cons {c : Char} {s : List Char} (h : ContainsPattern s) :
    ContainsPattern (c :: s) := by
  obtain ⟨pre, ws, ds, post, hws, hne, hds, rfl⟩ := h
  exact ⟨c :: pre, ws, ds, post, hws, hne, hds, by simp⟩

/-- Soundness of the search: a result is an instance of the pattern in the input. -/
theorem reFind_some {s full g : List Char} (h : reFind s = some (full, g)) :
    ∃ pre ws post, (∀ c ∈ ws, isReSpace c = true) ∧ g ≠ [] ∧
      (∀ c ∈ g, isReDigit c = true) ∧ full = occurrence ws g ∧
      s = pre ++ occurrence ws g ++ post := by
  induction s with
  | nil => simp [reFind] at h
  | cons c cs ih =>
    unfold reFind at h
    cases hm : reMatchAt (c :: cs) with
    | some m =>
      rw [hm] at h
      simp only [Option.some.injEq] at h
      subst h
      obtain ⟨ws, post, hws, hne, hds, hfull, hs⟩ := reMatchAt_some hm
      exact ⟨[], ws, post, hws, hne, hds, hfull, by simpa using hs⟩
    | none =>
      rw [hm] at h
      obtain ⟨pre, ws, post, hws, hne, hds, hfull, hs⟩ := ih h
      exact ⟨c :: pre, ws, post, hws, hne, hds, hfull, by simp [hs]⟩

/-- The search returns the leftmost instance: an instance with no instance in the
text before it is the one found. -/
theorem reFind_leftmost (pre ws ds post : List Char) (hpre : ¬ ContainsPattern pre)
    (hws : ∀ c ∈ ws, isReSpace c = true) (hne : ds ≠ [])
    (hds : ∀ c ∈ ds, isReDigit c = true) :
    reFind (pre ++ occurrence ws ds ++ post) = some (occurrence ws ds, ds) := by
  induction pre with
  | nil =>
    have hm := reMatchAt_occurrence ws ds post hws hne hds
    have e : ([] : List Char) ++ occurrence ws ds ++ post
        = '[' :: (ws ++ ds ++ ['%', ']'] ++ post) := by simp [occurrence]
    have e' : occurrence ws ds ++ post = '[' :: (ws ++ ds ++ ['%', ']'] ++ post) := by
      simp [occurrence]
    rw [e]
    unfold reFind
    rw [← e', hm]
  | cons c cs ih =>
    have hcs : ¬ ContainsPattern cs := fun h => hpre (containsPattern_cons h)
    have hnone : reMatchAt (c :: cs ++ '[' :: (ws ++ ds ++ ['%', ']'] ++ post)) = none := by
      cases hm : reMatchAt (c :: cs ++ '[' :: (ws ++ ds ++ ['%', ']'] ++ post)) with
      | none => rfl
      | some m =>
        exfalso
        have hb := reMatchAt_barrier c cs _ m hm
        obtain ⟨full, g⟩ := m
        obtain ⟨ws', post', hws', hne', hds', _, hs⟩ := reMatchAt_some hb
        exact hpre ⟨[], ws', g, post', hws', hne', hds', by simpa using hs⟩
    have e : c :: cs ++ occurrence ws ds ++ post
        = c :: (cs ++ '[' :: (ws ++ ds ++ ['%', ']'] ++ post)) := by simp [occurrence]
    have e2 : cs ++ occurrence ws ds ++ post
        = cs ++ '[' :: (ws ++ ds ++ ['%', ']'] ++ post) := by simp [occurrence]
    rw [e]
    unfold reFind
    have hnone' : reMatchAt (c :: (cs ++ '[' :: (ws ++ ds ++ ['%', ']'] ++ post))) = none := by
      simpa using hnone
    rw [hnone', ← e2]
    exact ih hcs

/-- The search fails exactly on the texts that hold no instance of the pattern. -/
theorem reFind_eq_none_iff (s : List Char) : reFind s = none ↔ ¬ ContainsPattern s := by
  constructor
  · intro h hc
    induction s with
    | nil =>
      obtain ⟨pre, ws, ds, post, _, _, _, hs⟩ := hc
      simp [occurrence] at hs
    | cons c cs ih =>
      obtain ⟨pre, ws, ds, post, hws, hne, hds, hs⟩ := hc
      unfold reFind at h
      cases hm : reMatchAt (c :: cs) with
      | some m => rw [hm] at h; cases h
      | none =>
        rw [hm] at h
        cases pre with
        | nil =>
          have := reMatchAt_occurrence ws ds post hws hne hds
          rw [List.nil_append] at hs
          rw [← hs, hm] at this
          cases this
        | cons p pre' =>
          simp only [List.cons_append, List.cons.injEq] at hs
          exact ih h ⟨pre', ws, ds, post, hws, hne, hds, by simpa using hs.2⟩
  · intro h
    cases hf : reFind s with
    | none => rfl
    | some m =>
      obtain ⟨full, g⟩ := m
      obtain ⟨pre, ws, post, hws, hne, hds, _, hs⟩ := reFind_some hf
      exact absurd ⟨pre, ws, g, post, hws, hne, hds, hs⟩ h

/-! ## Lemmas on `strconv.Atoi` and the scan loop -/

theorem parseUintLoop_digits (maxVal : Nat) (cs : List Char) (n : Nat)
    (h : ∀ c ∈ cs, isReDigit c = true) :
    (parseUintLoop maxVal cs n).2 ≠ some NumError.ErrSyntax := by
  induction cs generalizing n with
  | nil => simp [parseUintLoop]
  | cons c cs ih =>
    have hc : isReDigit c = true := h c (List.mem_cons_self _ _)
    unfold parseUintLoop
    rw [if_pos hc]
    split
    · simp
    · exact ih _ (fun x hx => h x (List.mem_cons_of_mem _ hx))

/-- On a non-empty run of digits `Atoi` either returns the parsed value without
error or the largest `int` with a range error. -/
theorem Atoi_digits (intSize : Nat) (g : List Char) (hne : g ≠ [])
    (hds : ∀ c ∈ g, isReDigit c = true) :
    Atoi intSize (String.mk g) =
      if (parseUintLoop (2 ^ intSize - 1) g 0).1 ≥ 2 ^ (intSize - 1)
      then (((2 ^ (intSize - 1) - 1 : Nat) : Int), some NumError.ErrRange)
      else (((parseUintLoop (2 ^ intSize - 1) g 0).1 : Int), none) := by
  obtain ⟨c, cs, rfl⟩ := List.exists_cons_of_ne_nil hne
  have hc : isReDigit c = true := hds c (List.mem_cons_self _ _)
  have hplus : (c == '+') = false := by
    rw [beq_eq_false_iff_ne]; rintro rfl; exact absurd hc (by decide)
  have hminus : (c == '-') = false := by
    rw [beq_eq_false_iff_ne]; rintro rfl; exact absurd hc (by decide)
  have hsyn := parseUintLoop_digits (2 ^ intSize - 1) (c :: cs) 0 hds
  unfold Atoi
  simp only [hplus, hminus, Bool.or_self, Bool.false_eq_true, if_false]
  rcases hr : parseUintLoop (2 ^ intSize - 1) (c :: cs) 0 with ⟨un, e⟩
  rw [hr] at hsyn
  cases e with
  | none => by_cases hge : un ≥ 2 ^ (intSize - 1) <;> simp [hge]
  | some err =>
    cases err with
    | ErrSyntax => exact absurd rfl hsyn
    | ErrRange => by_cases hge : un ≥ 2 ^ (intSize - 1) <;> simp [hge]

theorem findStringSubmatch_some {line full m1 : String}
    (h : FindStringSubmatch line = [full, m1]) :
    m1.data ≠ [] ∧ (∀ c ∈ m1.data, isReDigit c = true) ∧
      reFind line.data = some (full.data, m1.data) := by
  unfold FindStringSubmatch at h
  cases hf : reFind line.data with
  | none => rw [hf] at h; simp at h
  | some m =>
    obtain ⟨f, g⟩ := m
    rw [hf] at h
    simp only [List.cons.injEq, and_true] at h
    obtain ⟨hfull, hm1⟩ := h
    obtain ⟨pre, ws, post, hws, hne, hds, _, _⟩ := reFind_some hf
    subst hfull; subst hm1
    exact ⟨hne, hds, rfl⟩

theorem scanLine_of_match (intSize : Nat) {line full m1 : String}
    (h : FindStringSubmatch line = [full, m1]) :
    scanLine intSize line = [Event.progressSet (((Atoi intSize m1).1 : ℚ) / 100)] := by
  unfold scanLine
  rw [h]

theorem scanLine_cases (intSize : Nat) (line : String) :
    scanLine intSize line = [] ∨
      ∃ full m1, FindStringSubmatch line = [full, m1] ∧
        scanLine intSize line = [Event.progressSet (((Atoi intSize m1).1 : ℚ) / 100)] := by
  unfold scanLine FindStringSubmatch
  cases reFind line.data with
  | none => left; rfl
  | some m => obtain ⟨f, g⟩ := m; right; exact ⟨_, _, rfl, rfl⟩

/-- Decimal numerals of the percentages 0 to 100 are non-empty digit runs that
`Atoi` parses back without error. -/
theorem Atoi_toDigits_le_100 :
    ∀ N : Fin 101, (Nat.toDigits 10 N.val ≠ [] ∧ (Nat.toDigits 10 N.val).all isReDigit = true) ∧
      Atoi 32 (String.mk (Nat.toDigits 10 N.val)) = ((N.val : Int), none) ∧
      Atoi 64 (String.mk (Nat.toDigits 10 N.val)) = ((N.val : Int), none) := by
  decide

theorem scanLoop_append (intSize : Nat) (xs ys : List String) :
    scanLoop intSize (xs ++ ys) = scanLoop intSize xs ++ scanLoop intSize ys := by
  induction xs with
  | nil => simp [scanLoop]
  | cons x xs ih => simp [scanLoop, ih]

theorem mem_scanLoop (intSize : Nat) (lines : List String) (e : Event)
    (h : e ∈ scanLoop intSize lines) :
    ∃ line ∈ lines, ∃ full m1, FindStringSubmatch line = [full, m1] ∧
      e = Event.progressSet (((Atoi intSize m1).1 : ℚ) / 100) := by
  induction lines with
  | nil => simp [scanLoop] at h
  | cons l ls ih =>
    simp only [scanLoop, List.mem_append] at h
    rcases h with h | h
    · rcases scanLine_cases intSize l with h0 | ⟨full, m1, hm, hl⟩
      · rw [h0] at h; cases h
      · rw [hl] at h
        simp only [List.mem_singleton] at h
        exact ⟨l, List.mem_cons_self _ _, full, m1, hm, h⟩
    · obtain ⟨line, hmem, rest⟩ := ih h
      exact ⟨line, List.mem_cons_of_mem _ hmem, rest⟩

theorem Reporter.run_append (r : Reporter) (xs ys : List Event) :
    r.run (xs ++ ys) = (r.run xs).run ys := by
  simp [Reporter.run, List.foldl_append]

theorem Reporter.run_scanLoop (r : Reporter) (intSize : Nat) (lines : List String) :
    (r.run (scanLoop intSize lines)).progressVisible = r.progressVisible ∧
      (r.run (scanLoop intSize lines)).status = r.status := by
  induction lines generalizing r with
  | nil => simp [scanLoop, Reporter.run]
  | cons l ls ih =>
    simp only [scanLoop, Reporter.run_append]
    rcases scanLine_cases intSize l with h0 | ⟨full, m1, _, hl⟩
    · rw [h0]; exact ih _
    · rw [hl]
      have := ih (r.run [Event.progressSet (((Atoi intSize m1).1 : ℚ) / 100)])
      simpa [Reporter.run, Reporter.step] using this

/-! ## Progress extraction -/

/-- C1, as stated, fails: the line `[ 50% ]`, the number 50 in decimal with one blank
after `[` and one blank between `%` and `]`, produces no progress update. -/
theorem scanLine_blank_before_bracket :
    "[ 50% ]".data = '[' :: ([' '] ++ Nat.toDigits 10 50 ++ '%' :: ([' '] ++ [']'])) ∧
      scanLine 64 "[ 50% ]" = [] ∧ scanLine 32 "[ 50% ]" = [] := by
  decide

/-- C1, amended: for every `N` from 0 to 100, a line in which the leftmost instance
of the pattern is `[`, any run of `\s` whitespace, `N` in decimal, `%]`, produces
exactly one progress update, of value `N / 100`. -/
theorem scanLine_percentage (intSize N : Nat) (line : String) (pre ws post : List Char)
    (hsize : intSize = 32 ∨ intSize = 64) (hN : N ≤ 100)
    (hws : ∀ c ∈ ws, isReSpace c = true)
    (hline : line.data = pre ++ occurrence ws (Nat.toDigits 10 N) ++ post)
    (hleft : ¬ ContainsPattern pre) :
    scanLine intSize line = [Event.progressSet ((N : ℚ) / 100)] := by
  obtain ⟨⟨hne, hall⟩, h32, h64⟩ := Atoi_toDigits_le_100 ⟨N, by omega⟩
  simp only at hne hall h32 h64
  have hds : ∀ c ∈ Nat.toDigits 10 N, isReDigit c = true := by
    simpa [List.all_eq_true] using hall
  have hfind := reFind_leftmost pre ws (Nat.toDigits 10 N) post hleft hws hne hds
  have hval : (Atoi intSize (String.mk (Nat.toDigits 10 N))).1 = (N : Int) := by
    rcases hsize with rfl | rfl
    · rw [h32]
    · rw [h64]
  unfold scanLine FindStringSubmatch
  rw [hline, hfind]
  simp only [hval]
  simp

/-- C1, amended, at the line `adb: [  7%] /sdcard/x.obb` on a 64-bit `int`. -/
theorem scanLine_percentage_witness :
    scanLine 64 "adb: [  7%] /sdcard/x.obb" = [Event.progressSet (((7 : ℕ) : ℚ) / 100)] :=
  scanLine_percentage 64 7 "adb: [  7%] /sdcard/x.obb" "adb: ".data "  ".data
    " /sdcard/x.obb".data (Or.inr rfl) (by decide) (by decide) (by decide)
    ((reFind_eq_none_iff _).mp (by decide))

/-- C9: a line that holds no instance of the pattern `[`, optional whitespace, one
or more digits, `%`, `]` produces no progress update, and the bindings are left as
they were. -/
theorem scanLine_no_pattern (intSize : Nat) (line : String) (rest : List String) (r : Reporter)
    (h : ¬ ContainsPattern line.data) :
    scanLine intSize line = [] ∧ r.run (scanLine intSize line) = r ∧
      scanLoop intSize (line :: rest) = scanLoop intSize rest := by
  have hf := (reFind_eq_none_iff line.data).mpr h
  have h0 : scanLine intSize line = [] := by
    unfold scanLine FindStringSubmatch
    rw [hf]
  refine ⟨h0, ?_, ?_⟩
  · rw [h0]; rfl
  · simp [scanLoop, h0]

/-- C9 at the line `[ 50% ]`, which holds no instance of the pattern. -/
theorem scanLine_no_pattern_witness :
    scanLine 64 "[ 50% ]" = [] ∧
      (⟨1 / 4, true, none⟩ : Reporter).run (scanLine 64 "[ 50% ]") = ⟨1 / 4, true, none⟩ ∧
      scanLoop 64 ["[ 50% ]", "[ 60%]"] = scanLoop 64 ["[ 60%]"] :=
  scanLine_no_pattern 64 "[ 50% ]" ["[ 60%]"] ⟨1 / 4, true, none⟩
    ((reFind_eq_none_iff _).mp (by decide))

/-- C2, as stated, fails: the digit run of `[99999999999999999999999%]` does not fit
a 64-bit `int`, `Atoi` reports a range error, and the line still produces a progress
update, of value `9223372036854775807 / 100`. -/
theorem scanLine_out_of_range_emits :
    FindStringSubmatch "[99999999999999999999999%]"
        = ["[99999999999999999999999%]", "99999999999999999999999"] ∧
      (Atoi 64 "99999999999999999999999").2 = some NumError.ErrRange ∧
      scanLine 64 "[99999999999999999999999%]"
        = [Event.progressSet ((9223372036854775807 : ℚ) / 100)] := by
  refine ⟨by decide, by decide, ?_⟩
  have h : FindStringSubmatch "[99999999999999999999999%]"
      = ["[99999999999999999999999%]", "99999999999999999999999"] := by decide
  rw [scanLine_of_match 64 h]
  have hv : (Atoi 64 "99999999999999999999999").1 = 9223372036854775807 := by decide
  rw [hv]
  norm_num

/-- C2, amended: when the digit run captured from a line cannot be parsed as an
`int`, the error is a range error and is discarded: the line produces one progress
update carrying the largest `int` divided by 100, and the loop goes on with the
next line. -/
theorem scanLine_unparseable (intSize : Nat) (line full m1 : String) (rest : List String)
    (hm : FindStringSubmatch line = [full, m1]) (herr : (Atoi intSize m1).2 ≠ none) :
    (Atoi intSize m1).2 = some NumError.ErrRange ∧
      scanLine intSize line
        = [Event.progressSet ((((2 ^ (intSize - 1) - 1 : Nat) : Int) : ℚ) / 100)] ∧
      scanLoop intSize (line :: rest)
        = Event.progressSet ((((2 ^ (intSize - 1) - 1 : Nat) : Int) : ℚ) / 100)
            :: scanLoop intSize rest := by
  obtain ⟨hne, hds, _⟩ := findStringSubmatch_some hm
  have hA := Atoi_digits intSize m1.data hne hds
  have hA' : Atoi intSize m1 = _ := hA
  by_cases hge : (parseUintLoop (2 ^ intSize - 1) m1.data 0).1 ≥ 2 ^ (intSize - 1)
  · rw [if_pos hge] at hA'
    have hl := scanLine_of_match intSize hm
    rw [hA'] at hl
    refine ⟨by rw [hA'], hl, ?_⟩
    simp [scanLoop, hl]
  · rw [if_neg hge] at hA'
    rw [hA'] at herr
    exact absurd rfl herr

/-- C2, amended, at the line `[99999999999999999999999%]` followed by `[ 10%]`. -/
theorem scanLine_unparseable_witness :
    (Atoi 64 "99999999999999999999999").2 = some NumError.ErrRange ∧
      scanLine 64 "[99999999999999999999999%]"
        = [Event.progressSet ((((2 ^ (64 - 1) - 1 : Nat) : Int) : ℚ) / 100)] ∧
      scanLoop 64 ["[99999999999999999999999%]", "[ 10%]"]
        = Event.progressSet ((((2 ^ (64 - 1) - 1 : Nat) : Int) : ℚ) / 100)
            :: scanLoop 64 ["[ 10%]"] :=
  scanLine_unparseable 64 "[99999999999999999999999%]" "[99999999999999999999999%]"
    "99999999999999999999999" ["[ 10%]"] (by decide) (by decide)

/-! ## The run of `sendFile` -/

theorem mem_timeline_progress (intSize : Nat) (Base : String → String)
    (pkg dest filePath : String) (lines : List String) (waitErr : Bool) (v : ℚ)
    (h : Event.progressSet v ∈ (sendFile intSize Base pkg dest filePath lines waitErr).timeline) :
    v = 0 ∨ v = 1 ∨ Event.progressSet v ∈ scanLoop intSize lines := by
  cases waitErr
  · simp [sendFile, SendFileRun.timeline] at h
    rcases h with h | h | h
    · exact Or.inl h
    · exact Or.inr (Or.inr h)
    · exact Or.inr (Or.inl h)
  · simp [sendFile, SendFileRun.timeline] at h
    rcases h with h | h
    · exact Or.inl h
    · exact Or.inr (Or.inr h)

theorem Atoi_capture_nonneg (intSize : Nat) {line full m1 : String}
    (hm : FindStringSubmatch line = [full, m1]) : 0 ≤ (Atoi intSize m1).1 := by
  obtain ⟨hne, hds, _⟩ := findStringSubmatch_some hm
  have hA : Atoi intSize m1 = _ := Atoi_digits intSize m1.data hne hds
  rw [hA]
  split
  · exact Int.ofNat_nonneg _
  · exact Int.ofNat_nonneg _

/-- C3, as stated, fails: with the output line `[150%]` the run of `sendFile` writes
the progress value `150 / 100`, which is above 1. -/
theorem sendFile_progress_above_one :
    Event.progressSet ((150 : ℚ) / 100) ∈
        (sendFile 64 id "com.example" "files" "/tmp/main.obb" ["[150%]"] false).timeline ∧
      ¬ ((150 : ℚ) / 100 ≤ 1) := by
  constructor
  · have h : FindStringSubmatch "[150%]" = ["[150%]", "150"] := by decide
    have hv : (Atoi 64 "150").1 = 150 := by decide
    have hl := scanLine_of_match 64 h
    rw [hv] at hl
    simp [sendFile, SendFileRun.timeline, scanLoop, hl]
  · norm_num

/-- C3, amended: every progress value a run of `sendFile` writes is non-negative, and
it lies in the closed interval from 0 to 1 when the integer parsed from the match of
every output line is at most 100. -/
theorem sendFile_progress_range (intSize : Nat) (Base : String → String)
    (pkg dest filePath : String) (lines : List String) (waitErr : Bool) :
    (∀ v, Event.progressSet v ∈
        (sendFile intSize Base pkg dest filePath lines waitErr).timeline → 0 ≤ v) ∧
      ((∀ line ∈ lines, ∀ full m1, FindStringSubmatch line = [full, m1] →
          (Atoi intSize m1).1 ≤ 100) →
        ∀ v, Event.progressSet v ∈
          (sendFile intSize Base pkg dest filePath lines waitErr).timeline →
            0 ≤ v ∧ v ≤ 1) := by
  have hnn : ∀ v, Event.progressSet v ∈
      (sendFile intSize Base pkg dest filePath lines waitErr).timeline → 0 ≤ v := by
    intro v hv
    rcases mem_timeline_progress intSize Base pkg dest filePath lines waitErr v hv
      with h | h | h
    · rw [h]
    · rw [h]; norm_num
    · obtain ⟨line, _, full, m1, hm, he⟩ := mem_scanLoop intSize lines _ h
      simp only [Event.progressSet.injEq] at he
      rw [he]
      have := Atoi_capture_nonneg intSize hm
      have h0 : (0 : ℚ) ≤ ((Atoi intSize m1).1 : ℚ) := by exact_mod_cast this
      positivity
  refine ⟨hnn, ?_⟩
  intro hle v hv
  refine ⟨hnn v hv, ?_⟩
  rcases mem_timeline_progress intSize Base pkg dest filePath lines waitErr v hv
    with h | h | h
  · rw [h]; norm_num
  · rw [h]
  · obtain ⟨line, hmem, full, m1, hm, he⟩ := mem_scanLoop intSize lines _ h
    simp only [Event.progressSet.injEq] at he
    rw [he]
    have := hle line hmem full m1 hm
    have h100 : ((Atoi intSize m1).1 : ℚ) ≤ 100 := by exact_mod_cast this
    linarith

/-- C3, amended, at the output lines `[ 40%]`, `pushing` and `[100%]`: the values
written are 0, 40/100, 100/100 and 1, all between 0 and 1. -/
theorem sendFile_progress_range_witness :
    (sendFile 64 id "com.example" "obb" "/tmp/main.obb"
        ["[ 40%]", "pushing", "[100%]"] false).timeline.filterMap
          (fun e => match e with
            | Event.progressSet v => some v
            | _ => none)
        = [0, (40 : ℚ) / 100, (100 : ℚ) / 100, 1] ∧
      ∀ v, Event.progressSet v ∈
        (sendFile 64 id "com.example" "obb" "/tmp/main.obb"
          ["[ 40%]", "pushing", "[100%]"] false).timeline → 0 ≤ v ∧ v ≤ 1 := by
  have h40 : FindStringSubmatch "[ 40%]" = ["[ 40%]", "40"] := by decide
  have h100 : FindStringSubmatch "[100%]" = ["[100%]", "100"] := by decide
  have hp : FindStringSubmatch "pushing" = [] := by decide
  have v40 : Atoi 64 "40" = (40, none) := by decide
  have v100 : Atoi 64 "100" = (100, none) := by decide
  have l40 := scanLine_of_match 64 h40
  have l100 := scanLine_of_match 64 h100
  have lp : scanLine 64 "pushing" = [] := by unfold scanLine; rw [hp]
  rw [v40] at l40
  rw [v100] at l100
  refine ⟨?_, ?_⟩
  · simp [sendFile, SendFileRun.timeline, scanLoop, l40, l100, lp]
  · refine (sendFile_progress_range 64 id "com.example" "obb" "/tmp/main.obb"
      ["[ 40%]", "pushing", "[100%]"] false).2 ?_
    intro line hline full m1 hm
    simp only [List.mem_cons, List.mem_singleton, List.not_mem_nil, or_false] at hline
    rcases hline with rfl | rfl | rfl
    · rw [h40] at hm
      simp only [List.cons.injEq, and_true] at hm
      rw [← hm.2, v40]; decide
    · rw [hp] at hm; cases hm
    · rw [h100] at hm
      simp only [List.cons.injEq, and_true] at hm
      rw [← hm.2, v100]

/-- C4: the remote directory is `/sdcard/Android/data/<p>/files/` for the destination
`files` and `/sdcard/Android/obb/<p>/` otherwise (destination `obb`), with the
trailing slash, and it is the directory both `adb` commands of `sendFile` receive. -/
theorem remotePath_template (p : String) :
    remotePath p "files" = "/sdcard/Android/data/" ++ p ++ "/files/" ∧
      remotePath p "obb" = "/sdcard/Android/obb/" ++ p ++ "/" ∧
      (∀ dest, dest ≠ "files" → remotePath p dest = "/sdcard/Android/obb/" ++ p ++ "/") ∧
      remotePath "com.example" "files" = "/sdcard/Android/data/com.example/files/" ∧
      remotePath "com.example" "obb" = "/sdcard/Android/obb/com.example/" ∧
      ∀ intSize Base dest filePath lines waitErr,
        Event.command ["adb", "shell", "mkdir", "-p", remotePath p dest] ∈
            (sendFile intSize Base p dest filePath lines waitErr).main ∧
          Event.command ["adb", "push", filePath, remotePath p dest] ∈
            (sendFile intSize Base p dest filePath lines waitErr).main := by
  refine ⟨by simp [remotePath], ?_, ?_, by decide, by decide, ?_⟩
  · have : ("obb" : String) ≠ "files" := by decide
    simp [remotePath, this]
  · intro dest hd
    simp [remotePath, hd]
  · intro intSize Base dest filePath lines waitErr
    cases waitErr <;> simp [sendFile]

theorem scanLoop_only_progress (intSize : Nat) (lines : List String) (e : Event)
    (h : e ∈ scanLoop intSize lines) : ∃ v, e = Event.progressSet v := by
  obtain ⟨_, _, _, m1, _, he⟩ := mem_scanLoop intSize lines e h
  exact ⟨_, he⟩

/-- C6: when `cmd.Wait()` returns an error, whatever the output lines, the run ends
with the status `Error.SendFailed` followed by hiding the progress bar; no goroutine
is started, so no delayed hide, no success status and no forced progress value 1
follow the failure; the bindings end with the failure status and the bar hidden. -/
theorem sendFile_failure (intSize : Nat) (Base : String → String)
    (pkg dest filePath : String) (lines : List String) (r0 : Reporter) :
    (sendFile intSize Base pkg dest filePath lines true).timeline =
        [ Event.progressVisibleSet true, Event.progressSet 0,
          Event.statusSet ⟨"Status.Sending", [("file", Base filePath)]⟩,
          Event.command ["adb", "shell", "mkdir", "-p", remotePath pkg dest],
          Event.command ["adb", "push", filePath, remotePath pkg dest] ]
        ++ scanLoop intSize lines
        ++ [Event.statusSet ⟨"Error.SendFailed", []⟩, Event.progressVisibleSet false] ∧
      (sendFile intSize Base pkg dest filePath lines true).spawned = none ∧
      Event.statusSet ⟨"Status.Success", []⟩ ∉
        (sendFile intSize Base pkg dest filePath lines true).timeline ∧
      (∀ d, Event.sleep d ∉ (sendFile intSize Base pkg dest filePath lines true).timeline) ∧
      (r0.run (sendFile intSize Base pkg dest filePath lines true).timeline).status
        = some ⟨"Error.SendFailed", []⟩ ∧
      (r0.run (sendFile intSize Base pkg dest filePath lines true).timeline).progressVisible
        = false := by
  have ht : (sendFile intSize Base pkg dest filePath lines true).timeline =
        [ Event.progressVisibleSet true, Event.progressSet 0,
          Event.statusSet ⟨"Status.Sending", [("file", Base filePath)]⟩,
          Event.command ["adb", "shell", "mkdir", "-p", remotePath pkg dest],
          Event.command ["adb", "push", filePath, remotePath pkg dest] ]
        ++ scanLoop intSize lines
        ++ [Event.statusSet ⟨"Error.SendFailed", []⟩, Event.progressVisibleSet false] := by
    simp [sendFile, SendFileRun.timeline]
  refine ⟨ht, by simp [sendFile], ?_, ?_, ?_, ?_⟩
  · rw [ht]
    intro hmem
    simp only [List.mem_append, List.mem_cons, List.mem_singleton, List.not_mem_nil,
      or_false] at hmem
    rcases hmem with (h | h) | h
    · rcases h with h | h | h | h | h
      · cases h
      · cases h
      · have := congrArg (fun e => match e with
          | Event.statusSet m => m.MessageID
          | _ => "") h
        simp at this
      · cases h
      · cases h
    · obtain ⟨v, hv⟩ := scanLoop_only_progress intSize lines _ h
      cases hv
    · rcases h with h | h
      · have := congrArg (fun e => match e with
          | Event.statusSet m => m.MessageID
          | _ => "") h
        simp at this
      · cases h
  · intro d
    rw [ht]
    intro hmem
    simp only [List.mem_append, List.mem_cons, List.mem_singleton, List.not_mem_nil,
      or_false] at hmem
    rcases hmem with (h | h) | h
    · rcases h with h | h | h | h | h <;> cases h
    · obtain ⟨v, hv⟩ := scanLoop_only_progress intSize lines _ h
      cases hv
    · rcases h with h | h <;> cases h
  · rw [ht, Reporter.run_append]
    simp [Reporter.run, Reporter.step]
  · rw [ht, Reporter.run_append]
    simp [Reporter.run, Reporter.step]

/-- C7: when `cmd.Wait()` returns no error, whatever the output lines, the function
ends by writing progress 1 and the status `Status.Success` and never hides the bar
itself: after its own steps the bindings hold progress 1, the success status and a
visible bar. The hide is the step of a goroutine that first sleeps 2 seconds; after
it the bar is hidden and the progress value is still 1. -/
theorem sendFile_success (intSize : Nat) (Base : String → String)
    (pkg dest filePath : String) (lines : List String) (r0 : Reporter) :
    (sendFile intSize Base pkg dest filePath lines false).main =
        [ Event.progressVisibleSet true, Event.progressSet 0,
          Event.statusSet ⟨"Status.Sending", [("file", Base filePath)]⟩,
          Event.command ["adb", "shell", "mkdir", "-p", remotePath pkg dest],
          Event.command ["adb", "push", filePath, remotePath pkg dest] ]
        ++ scanLoop intSize lines
        ++ [Event.progressSet 1, Event.statusSet ⟨"Status.Success", []⟩] ∧
      (sendFile intSize Base pkg dest filePath lines false).spawned
        = some [Event.sleep 2000000000, Event.progressVisibleSet false] ∧
      (sendFile intSize Base pkg dest filePath lines false).timeline
        = (sendFile intSize Base pkg dest filePath lines false).main
          ++ [Event.sleep 2000000000, Event.progressVisibleSet false] ∧
      Event.progressVisibleSet false ∉
        (sendFile intSize Base pkg dest filePath lines false).main ∧
      (r0.run (sendFile intSize Base pkg dest filePath lines false).main)
        = ⟨1, true, some ⟨"Status.Success", []⟩⟩ ∧
      (r0.run (sendFile intSize Base pkg dest filePath lines false).timeline)
        = ⟨1, false, some ⟨"Status.Success", []⟩⟩ := by
  have hm : (sendFile intSize Base pkg dest filePath lines false).main =
        [ Event.progressVisibleSet true, Event.progressSet 0,
          Event.statusSet ⟨"Status.Sending", [("file", Base filePath)]⟩,
          Event.command ["adb", "shell", "mkdir", "-p", remotePath pkg dest],
          Event.command ["adb", "push", filePath, remotePath pkg dest] ]
        ++ scanLoop intSize lines
        ++ [Event.progressSet 1, Event.statusSet ⟨"Status.Success", []⟩] := by
    simp [sendFile]
  have hs : (sendFile intSize Base pkg dest filePath lines false).spawned
      = some [Event.sleep 2000000000, Event.progressVisibleSet false] := by
    simp [sendFile, Second]
  have ht : (sendFile intSize Base pkg dest filePath lines false).timeline
      = (sendFile intSize Base pkg dest filePath lines false).main
        ++ [Event.sleep 2000000000, Event.progressVisibleSet false] := by
    simp [SendFileRun.timeline, hs]
  have hrun : r0.run (sendFile intSize Base pkg dest filePath lines false).main
      = ⟨1, true, some ⟨"Status.Success", []⟩⟩ := by
    rw [hm, Reporter.run_append, Reporter.run_append]
    have hl := Reporter.run_scanLoop
      (r0.run [ Event.progressVisibleSet true, Event.progressSet 0,
          Event.statusSet ⟨"Status.Sending", [("file", Base filePath)]⟩,
          Event.command ["adb", "shell", "mkdir", "-p", remotePath pkg dest],
          Event.command ["adb", "push", filePath, remotePath pkg dest] ]) intSize lines
    have hv : (r0.run [ Event.progressVisibleSet true, Event.progressSet 0,
          Event.statusSet ⟨"Status.Sending", [("file", Base filePath)]⟩,
          Event.command ["adb", "shell", "mkdir", "-p", remotePath pkg dest],
          Event.command ["adb", "push", filePath, remotePath pkg dest] ]).progressVisible
        = true := by
      simp [Reporter.run, Reporter.step]
    rw [hv] at hl
    simp only [Reporter.run, List.foldl, Reporter.step] at hl ⊢
    rw [hl.1]
  refine ⟨hm, hs, ht, ?_, hrun, ?_⟩
  · rw [hm]
    intro hmem
    simp only [List.mem_append, List.mem_cons, List.mem_singleton, List.not_mem_nil,
      or_false] at hmem
    rcases hmem with (h | h) | h
    · rcases h with h | h | h | h | h <;> simp at h
    · obtain ⟨v, hv⟩ := scanLoop_only_progress intSize lines _ h
      cases hv
    · rcases h with h | h <;> cases h
  · rw [ht, Reporter.run_append, hrun]
    simp [Reporter.run, Reporter.step]

/-! ## `listPackages` -/

theorem splitBy_ne_nil (p : Char → Bool) (l : List Char) : splitBy p l ≠ [] := by
  cases l with
  | nil => simp [splitBy]
  | cons c cs =>
    unfold splitBy
    split
    · simp
    · split <;> simp

/-- The pieces of `strings.Split`, joined by the separator, give the text back, and
no piece holds the separator. -/
theorem splitBy_spec (sep : Char) (l : List Char) :
    [sep].intercalate (splitBy (fun c => c == sep) l) = l ∧
      ∀ piece ∈ splitBy (fun c => c == sep) l, sep ∉ piece := by
  induction l with
  | nil => simp [splitBy, List.intercalate]
  | cons c cs ih =>
    obtain ⟨ih1, ih2⟩ := ih
    cases hs : splitBy (fun c => c == sep) cs with
    | nil => exact absurd hs (splitBy_ne_nil _ cs)
    | cons h t =>
      rw [hs] at ih1 ih2
      by_cases hc : c = sep
      · subst hc
        have e : splitBy (fun x => x == c) (c :: cs) = [] :: h :: t := by
          simp [splitBy, hs]
        rw [e]
        refine ⟨?_, ?_⟩
        · rw [← ih1]
          simp [List.intercalate, List.intersperse]
        · intro piece hp
          simp only [List.mem_cons] at hp
          rcases hp with rfl | hp
          · simp
          · exact ih2 piece (by simpa using hp)
      · have e : splitBy (fun x => x == sep) (c :: cs) = (c :: h) :: t := by
          simp [splitBy, hs, hc]
        rw [e]
        refine ⟨?_, ?_⟩
        · rw [← ih1]
          cases t <;> simp [List.intercalate, List.intersperse]
        · intro piece hp
          simp only [List.mem_cons] at hp
          rcases hp with rfl | hp
          · have := ih2 h (by simp)
            simp [this, Ne.symm hc]
          · exact ih2 piece (by simp [hp])

theorem collectPackages_eq (lines : List String) :
    collectPackages lines =
      (lines.map (fun l => TrimSpace (TrimPrefix l "package:"))).filter (fun l => l ≠ "") := by
  induction lines with
  | nil => rfl
  | cons l ls ih =>
    by_cases h : TrimSpace (TrimPrefix l "package:") = ""
    · simp [collectPackages, h, ih]
    · simp [collectPackages, h, ih]

theorem sortStrings_sorted (x : List String) :
    (sortStrings x).Sorted (fun a b => a ≤ b) :=
  List.sorted_insertionSort (fun a b : String => a ≤ b) x

theorem sortStrings_perm (x : List String) : (sortStrings x).Perm x :=
  List.perm_insertionSort (fun a b : String => a ≤ b) x

/-- Every ascending rearrangement of `x` is `sortStrings x`: the model of
`sort.Strings` does not depend on the algorithm. -/
theorem sortStrings_unique (x out : List String) (hp : out.Perm x)
    (hs : out.Sorted (fun a b => a ≤ b)) : out = sortStrings x :=
  List.eq_of_perm_of_sorted (hp.trans (sortStrings_perm x).symm) hs (sortStrings_sorted x)

/-- C5: after a successful `listPackages` the master list and the visible list are
the same list: the lines of the output, split at newlines, with the prefix
`package:` and then the surrounding white space stripped and the empty results
dropped, in ascending order of `<` on strings (the only ascending rearrangement of
them, duplicates kept); the output `package:com.b\npackage:com.a\n\n` gives
`com.a`, `com.b`. -/
theorem listPackages_sorted (st : PackageLists) (output : String) :
    (listPackages st (CmdOutput.ok output)).1.packages
        = (listPackages st (CmdOutput.ok output)).1.allPackages ∧
      (listPackages st (CmdOutput.ok output)).1.allPackages.Sorted (fun a b => a ≤ b) ∧
      (listPackages st (CmdOutput.ok output)).1.allPackages.Perm
        (((Split output '\n').map (fun l => TrimSpace (TrimPrefix l "package:"))).filter
          (fun l => l ≠ "")) ∧
      (∀ out : List String,
        out.Perm (((Split output '\n').map
          (fun l => TrimSpace (TrimPrefix l "package:"))).filter (fun l => l ≠ "")) →
        out.Sorted (fun a b => a ≤ b) →
        out = (listPackages st (CmdOutput.ok output)).1.allPackages) ∧
      (∀ a b : String, a ≤ b ↔ a.toList ≤ b.toList) ∧
      (listPackages st (CmdOutput.ok "package:com.b\npackage:com.a\n\n")).1
        = ⟨["com.a", "com.b"], ["com.a", "com.b"]⟩ := by
  have hall : (listPackages st (CmdOutput.ok output)).1.allPackages
      = sortStrings (collectPackages (Split output '\n')) := rfl
  refine ⟨rfl, ?_, ?_, ?_, fun a b => String.le_iff_toList_le, ?_⟩
  · rw [hall]; exact sortStrings_sorted _
  · rw [hall, ← collectPackages_eq]; exact sortStrings_perm _
  · intro out hp hs
    rw [hall]
    rw [← collectPackages_eq] at hp
    exact sortStrings_unique _ out hp hs
  · have hc : collectPackages (Split "package:com.b\npackage:com.a\n\n" '\n')
        = ["com.b", "com.a"] := by decide
    have hle : ¬ ("com.b" ≤ "com.a") :=
      fun h => absurd (String.le_iff_toList_le.mp h) (by decide)
    have hs : sortStrings ["com.b", "com.a"] = ["com.a", "com.b"] := by
      simp [sortStrings, List.insertionSort, List.orderedInsert, hle]
    simp only [listPackages]
    rw [hc, hs]

/-! ## The package search box -/

theorem matchesAll_eq (p : String) (terms : List String) :
    matchesAll p terms = terms.all (fun t => Contains p t) := by
  induction terms with
  | nil => rfl
  | cons t ts ih =>
    by_cases h : Contains p t = true
    · simp [matchesAll, h, ih]
    · simp [matchesAll, h]

theorem filterPackages_eq (toLower : Char → Char) (terms l : List String) :
    filterPackages toLower terms l =
      l.filter (fun pkg => matchesAll (ToLower toLower pkg) terms) := by
  induction l with
  | nil => rfl
  | cons x xs ih =>
    by_cases h : matchesAll (ToLower toLower x) terms = true
    · simp [filterPackages, h, ih]
    · simp [filterPackages, h, ih]

/-- The test behind `strings.Contains` is the substring relation. -/
theorem hasInfix_iff (t s : List Char) : hasInfix t s = true ↔ t <:+: s := by
  induction s with
  | nil => simp [hasInfix]
  | cons c cs ih =>
    simp only [hasInfix, Bool.or_eq_true, List.isPrefixOf_iff_prefix, ih, List.infix_cons_iff]

theorem splitBy_append_sep (p : Char → Bool) (a b : List Char) (c : Char) (hc : p c = true) :
    splitBy p (a ++ c :: b) = splitBy p a ++ splitBy p b := by
  induction a with
  | nil => simp [splitBy, hc]
  | cons x xs ih =>
    by_cases hx : p x = true
    · simp [splitBy, hx, ih]
    · have e : splitBy p (x :: (xs ++ c :: b)) =
          match splitBy p (xs ++ c :: b) with
          | h :: t => (x :: h) :: t
          | [] => [[x]] := by
        simp [splitBy, hx]
      have e2 : splitBy p (x :: xs) =
          match splitBy p xs with
          | h :: t => (x :: h) :: t
          | [] => [[x]] := by
        simp [splitBy, hx]
      rw [List.cons_append, e, e2, ih]
      cases hs : splitBy p xs with
      | nil => exact absurd hs (splitBy_ne_nil p xs)
      | cons h t => simp

/-- The fields of a text, as lists of characters. -/
theorem fields_data (s : String) :
    Fields s = ((splitBy isSpace s.data).filter (fun f => !f.isEmpty)).map String.mk := rfl

theorem fieldsL_dropWhile (l : List Char) :
    (splitBy isSpace (l.dropWhile isSpace)).filter (fun f => !f.isEmpty)
      = (splitBy isSpace l).filter (fun f => !f.isEmpty) := by
  induction l with
  | nil => rfl
  | cons c cs ih =>
    by_cases hc : isSpace c = true
    · simp [List.dropWhile, splitBy, hc, ih]
    · simp [List.dropWhile, hc]

theorem fieldsL_rdropWhile (l : List Char) :
    (splitBy isSpace (l.reverse.dropWhile isSpace).reverse).filter (fun f => !f.isEmpty)
      = (splitBy isSpace l).filter (fun f => !f.isEmpty) := by
  induction l using List.reverseRecOn with
  | nil => rfl
  | append_singleton xs x ih =>
    by_cases hx : isSpace x = true
    · have e : splitBy isSpace (xs ++ [x]) = splitBy isSpace xs ++ splitBy isSpace [] :=
        splitBy_append_sep isSpace xs [] x hx
      rw [e]
      simp [List.dropWhile, hx, ih, splitBy]
    · simp [List.dropWhile, hx]

theorem Fields_TrimSpace (s : String) : Fields (TrimSpace s) = Fields s := by
  simp only [fields_data, TrimSpace]
  rw [fieldsL_rdropWhile, fieldsL_dropWhile]

theorem TrimSpace_of_spaces (s : String) (h : ∀ c ∈ s.data, isSpace c = true) :
    TrimSpace s = "" := by
  have h1 : s.data.dropWhile isSpace = [] := by
    rw [List.dropWhile_eq_nil_iff]
    exact h
  simp [TrimSpace, h1]

theorem searchOnChanged_packages (toLower : Char → Char) (st : PackageLists) (text : String) :
    (searchOnChanged toLower st text).packages =
      st.allPackages.filter (fun pkg =>
        (Fields (ToLower toLower text)).all (fun term =>
          Contains (ToLower toLower pkg) term)) := by
  unfold searchOnChanged
  by_cases h : TrimSpace (ToLower toLower text) = ""
  · have hf : Fields (ToLower toLower text) = [] := by
      rw [← Fields_TrimSpace, h]; rfl
    simp [h, hf]
  · simp only [h, if_false]
    rw [filterPackages_eq, Fields_TrimSpace]
    simp only [matchesAll_eq]

/-- C10: after the search text changes, the visible list is the master list
filtered, in order, to the packages whose lower-cased name contains every field
(maximal run without white space) of the lower-cased text as a substring; a text
that is empty or only white space gives the whole master list (white space has no
lower-case mapping); the master list is left as it was. -/
theorem searchOnChanged_filter (toLower : Char → Char) (st : PackageLists) (text : String) :
    (searchOnChanged toLower st text).packages =
        st.allPackages.filter (fun pkg =>
          (Fields (ToLower toLower text)).all (fun term =>
            decide (term.data <:+: (ToLower toLower pkg).data))) ∧
      (searchOnChanged toLower st text).packages.Sublist st.allPackages ∧
      ((∀ c, isSpace c = true → isSpace (toLower c) = true) →
        (∀ c ∈ text.data, isSpace c = true) →
          (searchOnChanged toLower st text).packages = st.allPackages) ∧
      (searchOnChanged toLower st text).allPackages = st.allPackages := by
  have hp := searchOnChanged_packages toLower st text
  have hc : ∀ pkg term : String, Contains (ToLower toLower pkg) term
      = decide (term.data <:+: (ToLower toLower pkg).data) := by
    intro pkg term
    rw [Bool.eq_iff_iff]
    simp [Contains, hasInfix_iff]
  refine ⟨?_, ?_, ?_, ?_⟩
  · rw [hp]; simp only [hc]
  · rw [hp]; exact List.filter_sublist _
  · intro hsp hall
    have ht : TrimSpace (ToLower toLower text) = "" := by
      apply TrimSpace_of_spaces
      intro c hcm
      simp only [ToLower, List.mem_map] at hcm
      obtain ⟨d, hd, rfl⟩ := hcm
      exact hsp d (hall d hd)
    simp [searchOnChanged, ht]
  · unfold searchOnChanged
    by_cases h : TrimSpace (ToLower toLower text) = "" <;> simp [h]

theorem asciiToLower_space (c : Char) (h : isSpace c = true) :
    isSpace (asciiToLower c) = true := by
  unfold asciiToLower
  split
  · rename_i hAZ
    exfalso
    unfold isSpace at h
    simp only [Bool.or_eq_true, Bool.and_eq_true, beq_iff_eq, decide_eq_true_eq] at h
    repeat' (rcases h with h | h)
    all_goals first
      | exact absurd hAZ (by decide)
      | exact absurd (le_trans h.1 hAZ.2) (by decide)
  · exact h

/-- C10 at the master list `com.Foo.bar`, `org.baz`: the text `  FOO  Bar ` leaves
`com.Foo.bar`, the text of a blank and a tab leaves the whole list. -/
theorem searchOnChanged_filter_witness :
    (searchOnChanged asciiToLower ⟨["com.Foo.bar", "org.baz"], []⟩ "  FOO  Bar ").packages
        = ["com.Foo.bar"] ∧
      Fields (ToLower asciiToLower "  FOO  Bar ") = ["foo", "bar"] ∧
      (searchOnChanged asciiToLower ⟨["com.Foo.bar", "org.baz"], ["org.baz"]⟩ " \t").packages
        = ["com.Foo.bar", "org.baz"] :=
  ⟨by decide, by decide,
    (searchOnChanged_filter asciiToLower ⟨["com.Foo.bar", "org.baz"], ["org.baz"]⟩ " \t").2.2.1
      asciiToLower_space (by decide)⟩

/-! ## The file browser -/

theorem filesLess_strictWeak (toLower : Char → Char) :
    IsStrictWeakOrder (filesLess toLower) := by
  refine ⟨?_, ?_, ?_⟩
  · intro a
    simp [filesLess]
  · rintro ⟨an, ad⟩ ⟨bn, bd⟩ ⟨cn, cd⟩
    cases ad <;> cases bd <;> cases cd <;> simp [filesLess]
    all_goals exact fun h1 h2 => lt_trans h1 h2
  · rintro ⟨an, ad⟩ ⟨bn, bd⟩ ⟨cn, cd⟩
    cases ad <;> cases bd <;> cases cd <;> simp [filesLess]
    all_goals exact fun hab hba hbc hcb => ⟨le_trans hbc hab, le_trans hba hcb⟩

theorem filesLess_total (toLower : Char → Char) (a b : DirEntry) :
    filesLess toLower b a = false ∨ filesLess toLower a b = false := by
  obtain ⟨an, ad⟩ := a
  obtain ⟨bn, bd⟩ := b
  cases ad <;> cases bd <;> simp [filesLess]
  all_goals exact le_total _ _

theorem filesLess_negTrans (toLower : Char → Char) (a b c : DirEntry)
    (hab : filesLess toLower b a = false) (hbc : filesLess toLower c b = false) :
    filesLess toLower c a = false := by
  obtain ⟨an, ad⟩ := a
  obtain ⟨bn, bd⟩ := b
  obtain ⟨cn, cd⟩ := c
  revert hab hbc
  cases ad <;> cases bd <;> cases cd <;> simp [filesLess]
  all_goals exact fun h1 h2 => le_trans h1 h2

/-- A result the contract of `sort.Slice` allows always exists. -/
theorem exists_sortSlice_result (toLower : Char → Char) (files : List DirEntry) :
    ∃ out, IsSortSliceResult (filesLess toLower) files out := by
  haveI : IsTotal DirEntry (fun a b => filesLess toLower b a = false) :=
    ⟨fun a b => filesLess_total toLower a b⟩
  haveI : IsTrans DirEntry (fun a b => filesLess toLower b a = false) :=
    ⟨fun a b c => filesLess_negTrans toLower a b c⟩
  exact ⟨files.insertionSort (fun a b => filesLess toLower b a = false),
    List.perm_insertionSort _ files, List.sorted_insertionSort _ files⟩

theorem eq_filter_append_of_pairwise (out : List DirEntry)
    (h : out.Pairwise (fun a b => a.IsDir = false → b.IsDir = false)) :
    out = out.filter (fun e => e.IsDir) ++ out.filter (fun e => !e.IsDir) := by
  induction out with
  | nil => rfl
  | cons x xs ih =>
    rw [List.pairwise_cons] at h
    have ih' := ih h.2
    cases hx : x.IsDir with
    | true =>
      simp only [List.filter, hx, Bool.not_true, List.cons_append]
      rw [← ih']
    | false =>
      have hnone : xs.filter (fun e => e.IsDir) = [] := by
        rw [List.filter_eq_nil_iff]
        intro a ha
        simp [h.1 a ha hx]
      have hall : xs.filter (fun e => !e.IsDir) = xs := by
        rw [List.filter_eq_self]
        intro a ha
        simp [h.1 a ha hx]
      simp only [List.filter, hx, Bool.not_false, hnone, hall, List.nil_append]

/-- C8: the `less` of `updateFiles` is a strict weak ordering, `sort.Slice` has a
result for every listing, and every result the contract of `sort.Slice` allows is a
permutation of the listing made of its directories followed by its other entries,
the lower-cased names non-decreasing within the directories and within the others. -/
theorem updateFiles_sort_order (toLower : Char → Char) (files : List DirEntry) :
    IsStrictWeakOrder (filesLess toLower) ∧
      (∃ out, IsSortSliceResult (filesLess toLower) files out) ∧
      ∀ out, IsSortSliceResult (filesLess toLower) files out →
        out.Perm files ∧
        out = out.filter (fun e => e.IsDir) ++ out.filter (fun e => !e.IsDir) ∧
        (out.filter (fun e => e.IsDir)).Pairwise
          (fun a b => ToLower toLower a.Name ≤ ToLower toLower b.Name) ∧
        (out.filter (fun e => !e.IsDir)).Pairwise
          (fun a b => ToLower toLower a.Name ≤ ToLower toLower b.Name) := by
  refine ⟨filesLess_strictWeak toLower, exists_sortSlice_result toLower files, ?_⟩
  rintro out ⟨hperm, hsorted⟩
  refine ⟨hperm, ?_, ?_, ?_⟩
  · apply eq_filter_append_of_pairwise
    refine hsorted.imp ?_
    intro a b hba ha
    by_contra hb
    have hb' : b.IsDir = true := by simpa using hb
    simp [filesLess, ha, hb'] at hba
  · refine (hsorted.filter (fun e => e.IsDir)).imp_of_mem ?_
    intro a b ha hb hba
    have ha' : a.IsDir = true := (List.mem_filter.mp ha).2
    have hb' : b.IsDir = true := (List.mem_filter.mp hb).2
    simpa [filesLess, ha', hb'] using hba
  · refine (hsorted.filter (fun e => !e.IsDir)).imp_of_mem ?_
    intro a b ha hb hba
    have ha' : a.IsDir = false := by simpa using (List.mem_filter.mp ha).2
    have hb' : b.IsDir = false := by simpa using (List.mem_filter.mp hb).2
    simpa [filesLess, ha', hb'] using hba

/-- C8 at the listing `b.txt`, `Docs/`, `A.txt`, `apps/`: the order `apps/`, `Docs/`,
`A.txt`, `b.txt` is a result of the sort, directories first. -/
theorem updateFiles_sort_order_witness :
    IsSortSliceResult (filesLess asciiToLower)
        [⟨"b.txt", false⟩, ⟨"Docs", true⟩, ⟨"A.txt", false⟩, ⟨"apps", true⟩]
        [⟨"apps", true⟩, ⟨"Docs", true⟩, ⟨"A.txt", false⟩, ⟨"b.txt", false⟩] ∧
      ([⟨"apps", true⟩, ⟨"Docs", true⟩, ⟨"A.txt", false⟩, ⟨"b.txt", false⟩] : List DirEntry)
        = [⟨"apps", true⟩, ⟨"Docs", true⟩] ++ [⟨"A.txt", false⟩, ⟨"b.txt", false⟩] ∧
      ([⟨"apps", true⟩, ⟨"Docs", true⟩] : List DirEntry).Pairwise
        (fun a b => ToLower asciiToLower a.Name ≤ ToLower asciiToLower b.Name) := by
  have hres : IsSortSliceResult (filesLess asciiToLower)
      [⟨"b.txt", false⟩, ⟨"Docs", true⟩, ⟨"A.txt", false⟩, ⟨"apps", true⟩]
      [⟨"apps", true⟩, ⟨"Docs", true⟩, ⟨"A.txt", false⟩, ⟨"b.txt", false⟩] := by
    refine ⟨by decide, ?_⟩
    simp [filesLess, ToLower]
    decide
  have h := (updateFiles_sort_order asciiToLower
    [⟨"b.txt", false⟩, ⟨"Docs", true⟩, ⟨"A.txt", false⟩, ⟨"apps", true⟩]).2.2 _ hres
  exact ⟨hres, h.2.1, h.2.2.1⟩

end ObbSender
